import Mathlib

/-!
Verification of the perfume-kg expansion sanitizer (`src/server/expand.ts`) and
the incremental layout functions (`src/components/GraphView.tsx`, two revisions:
`part_000` and `part_001`) against the repository specification.

Embedding conventions:
* Untrusted generator output is a JSON value (`Json` below).  JavaScript
  `undefined` is represented by an absent field (`Option.none`); `null` is
  `Json.null`.  `x ?? y` and `x != null` treat the two alike, exactly as in JS.
* JS numbers appearing in the sanitizer are modelled as `Int` (only `depth`
  arithmetic and template-literal printing of loop counters occur).
* Layout coordinates are modelled as `ℚ`.  `Math.hypot` (an irrational square
  root) is kept abstract: every layout definition takes the hypotenuse function
  as an explicit argument `hyp : ℚ → ℚ → ℚ`, and every theorem about layout
  holds for every interpretation of `hyp`.  Likewise the point
  `(cos θ, sin θ)` used by ring placement is abstracted as
  `circle : Nat → Nat → ℚ × ℚ` (index and count determine the angle
  `2πi/max(count,1)`).
* `Array.prototype.sort` with the `localeCompare` comparator is modelled as
  sorting by a fixed total order on strings (`List.insertionSort (· ≤ ·)`);
  the theorems below depend only on the sort being a function of the multiset.
* `String.prototype.trim` is modelled by `jsTrim` (strip leading/trailing
  whitespace), implemented directly on the character list so that it can be
  evaluated by the kernel.
-/

/-- JSON values, the input space of `sanitizeExpandResult`'s `raw` argument. -/
inductive Json where
  | null
  | bool (b : Bool)
  | num (n : Int)
  | str (s : String)
  | arr (elems : List Json)
  | obj (fields : List (String × Json))

/-- First binding of a key in a JS object (JSON.parse never yields duplicates). -/
def jsLookup : List (String × Json) → String → Option Json
  | [], _ => none
  | (k, v) :: rest, key => if k = key then some v else jsLookup rest key

/-- Property access `o.key`: `none` models JS `undefined` (absent field, or
access on a primitive/array, which yields `undefined` without throwing). -/
def jsGet : Json → String → Option Json
  | .obj fields, key => jsLookup fields key
  | _, _ => none

/-- JS truthiness of a JSON value. -/
def jsTruthy : Json → Bool
  | .null => false
  | .bool b => b
  | .num n => n != 0
  | .str s => s != ""
  | .arr _ => true
  | .obj _ => true

/-- `x == null` in JS (loose): true for both `null` and `undefined`. -/
def jsNullish : Option Json → Bool
  | none => true
  | some .null => true
  | some _ => false

mutual

/-- JS `String(x)` coercion of a JSON value. -/
def jsToString : Json → String
  | .null => "null"
  | .bool true => "true"
  | .bool false => "false"
  | .num n => toString n
  | .str s => s
  | .obj _ => "[object Object]"
  | .arr xs => String.intercalate "," (jsArrParts xs)

/-- `Array.prototype.toString` stringifies elements, rendering `null` as `""`. -/
def jsArrParts : List Json → List String
  | [] => []
  | .null :: rest => "" :: jsArrParts rest
  | j :: rest => jsToString j :: jsArrParts rest

end

/-- JS `String(x)` where `x` may be `undefined` (an absent field). -/
def jsToStringOpt : Option Json → String
  | some j => jsToString j
  | none => "undefined"

/-- The whitespace characters stripped by `String.prototype.trim`. -/
def isJsSpace (c : Char) : Bool :=
  c = ' ' || c = '\t' || c = '\n' || c = '\r' || c = '\x0b' || c = '\x0c'

/-- JS `s.trim()`: strip whitespace from both ends. -/
def jsTrim (s : String) : String :=
  ⟨((s.data.dropWhile isJsSpace).reverse.dropWhile isJsSpace).reverse⟩

/-- `looksAsciiOnly` from expand.ts: `/^[\x00-\u007F]+$/.test(s)` — non-empty
and every character is ASCII. -/
def looksAsciiOnly (s : String) : Bool :=
  s != "" && s.data.all fun c => c.toNat ≤ 0x7F

/-- `hasJapaneseChar` from expand.ts: `/[぀-ヿ㐀-鿿]/.test(s)`. -/
def hasJapaneseChar (s : String) : Bool :=
  s.data.any fun c =>
    (decide (0x3040 ≤ c.toNat) && decide (c.toNat ≤ 0x30FF)) ||
    (decide (0x3400 ≤ c.toNat) && decide (c.toNat ≤ 0x9FFF))

/-- The result type of `inferDomainFromAllowedKinds`. -/
inductive Domain where
  | perfume
  | wine
  | unknown
deriving DecidableEq, Repr

/-- `inferDomainFromAllowedKinds` from expand.ts. -/
def inferDomainFromAllowedKinds (allowedKinds : List String) : Domain :=
  if allowedKinds.contains "producer" || allowedKinds.contains "grape" ||
      allowedKinds.contains "appellation" then .wine
  else if allowedKinds.contains "brand" || allowedKinds.contains "note" ||
      allowedKinds.contains "perfumer" then .perfume
  else .unknown

/-- `edgeLabelJa` from expand.ts: per-domain default relation label keyed by
the target node's kind. -/
def edgeLabelJa (domain : Domain) (targetKind : String) : String :=
  match domain with
  | .perfume =>
    if targetKind = "brand" then "ブランド"
    else if targetKind = "perfume" then "香水"
    else if targetKind = "note" then "ノート"
    else if targetKind = "accord" then "アコード"
    else if targetKind = "perfumer" then "調香師"
    else if targetKind = "style" then "スタイル"
    else if targetKind = "category" then "カテゴリ"
    else if targetKind = "root" then "関連"
    else "関連"
  | .wine =>
    if targetKind = "producer" then "生産者"
    else if targetKind = "wine" then "ワイン"
    else if targetKind = "region" then "地域"
    else if targetKind = "appellation" then "呼称"
    else if targetKind = "grape" then "品種"
    else if targetKind = "vintage" then "ヴィンテージ"
    else if targetKind = "style" then "スタイル"
    else if targetKind = "root" then "関連"
    else "関連"
  | .unknown => "関連"

/-- `shouldRequireJapaneseLabel` from expand.ts. -/
def shouldRequireJapaneseLabel (domain : Domain) (kind : String) : Bool :=
  match domain with
  | .perfume => !(["brand", "perfume", "perfumer"].contains kind)
  | .wine => !(["producer", "wine", "grape", "vintage", "appellation"].contains kind)
  | .unknown => false

/-- The candidate tried at step `j` of `makeUniqueId`'s loop: the bare base
first, then `base__1`, `base__2`, …. -/
def candidateId (base : String) (j : Nat) : String :=
  if j = 0 then base else base ++ "__" ++ Nat.repr j

/-- The `while (used.has(id))` loop of `makeUniqueId`, as fuelled recursion.
`used.length + 1` units of fuel always suffice (`candidateId base` is
injective, so among `used.length + 1` candidates one is unused), so the
fuel-exhausted branch is unreachable; this is proved below
(`makeUniqueId_fst_not_mem`). -/
def makeUniqueIdGo (base : String) (used : List String) : Nat → Nat → String
  | 0, j => candidateId base j
  | fuel + 1, j =>
    if candidateId base j ∈ used then makeUniqueIdGo base used fuel (j + 1)
    else candidateId base j

/-- `makeUniqueId` from expand.ts.  The JS version mutates the `used` set and
returns the fresh id; here the updated pool is returned alongside it. -/
def makeUniqueId (base : String) (used : List String) : String × List String :=
  let id := makeUniqueIdGo base used (used.length + 1) 0
  (id, id :: used)

/-- The `Node` record of expand.ts. -/
structure Node where
  id : String
  label : String
  kind : String
  depth : Int
deriving DecidableEq, Repr, Inhabited

/-- The `Edge` record of expand.ts. -/
structure Edge where
  id : String
  source : String
  target : String
  label : String
deriving DecidableEq, Repr, Inhabited

/-- The `ExpandResponse` record of expand.ts. -/
structure ExpandResponse where
  nodes : List Node
  edges : List Edge
deriving DecidableEq, Repr

/-- `raw?.nodes ?? []` (resp. `edges`): property access on anything that is
not an object yields `undefined`, and `?? []` maps `undefined`/`null` to an
empty array.  A present non-null value is returned as is. -/
def rawField (raw : Json) (key : String) : Json :=
  match jsGet raw key with
  | none => .arr []
  | some .null => .arr []
  | some v => v

/-- Calling `.filter` on a non-array value throws a `TypeError` in JS; the
sanitizer does not guard against it. -/
def asArray : Json → Except String (List Json)
  | .arr xs => .ok xs
  | _ => .error "TypeError: filter is not a function"

/-- Stage 1 of the node pipeline (expand.ts lines 91–99): keep entries with a
string `id`, trim `id`/`label`, default `label` to `id`, coerce unknown kinds
to the last allowed kind (or "node"), force `depth = focusDepth + 1`, then
drop entries whose trimmed id is empty. -/
def extractNodes (focusDepth : Int) (allowedKinds : List String)
    (rawNodes : List Json) : List Node :=
  ((rawNodes.filter fun n =>
      jsTruthy n &&
        (match jsGet n "id" with | some (.str _) => true | _ => false))
    |>.map fun n =>
      let id := jsTrim (jsToStringOpt (jsGet n "id"))
      let rawLabel := if jsNullish (jsGet n "label") then jsGet n "id" else jsGet n "label"
      let label := jsTrim (jsToStringOpt rawLabel)
      let kindStr := jsToStringOpt (jsGet n "kind")
      let kind :=
        if allowedKinds.contains kindStr then kindStr
        else (allowedKinds.getLast?).getD "node"
      Node.mk id label kind (focusDepth + 1))
    |>.filter fun n => decide (0 < n.id.length)

/-- Stage 2 (expand.ts line 101): resolve id collisions against the pool
seeded with every existing element id, registering each resolved id at once. -/
def resolveNodeIds : List Node → List String → List Node × List String
  | [], used => ([], used)
  | n :: rest, used =>
    let r := makeUniqueId n.id used
    let rec' := resolveNodeIds rest r.2
    ({ n with id := r.1 } :: rec'.1, rec'.2)

/-- Stage 4 (expand.ts lines 102–107): the language-policy filter. -/
def languageFilter (domain : Domain) (ns : List Node) : List Node :=
  ns.filter fun n =>
    if !shouldRequireJapaneseLabel domain n.kind then true
    else if hasJapaneseChar n.label then true
    else if looksAsciiOnly n.label then false
    else true

/-- Stage 3 in the spec's numbering (expand.ts line 110): the cardinality cap.
In the code it runs after the language filter. -/
def capNodes (ns : List Node) : List Node :=
  if ns.length > 3 then ns.take 3 else ns

/-- The full node pipeline of `sanitizeExpandResult`, in the code's order:
extraction → id resolution → language filter → cardinality cap. -/
def nodesPipeline (focusDepth : Int) (existingElementIds allowedKinds : List String)
    (rawNodes : List Json) : List Node :=
  capNodes (languageFilter (inferDomainFromAllowedKinds allowedKinds)
    (resolveNodeIds (extractNodes focusDepth allowedKinds rawNodes) existingElementIds).1)

/-- The node pipeline as claim C7 describes it: cardinality cap (stage 3)
before the language filter (stage 4).  Modelled from the claim's words, for
comparison with `nodesPipeline`. -/
def claimOrderNodesPipeline (focusDepth : Int)
    (existingElementIds allowedKinds : List String) (rawNodes : List Json) : List Node :=
  languageFilter (inferDomainFromAllowedKinds allowedKinds)
    (capNodes (resolveNodeIds (extractNodes focusDepth allowedKinds rawNodes) existingElementIds).1)

/-- The three candidate-edge filters (expand.ts lines 117–120): non-nullish
endpoints, `source` printing exactly as `focusId`, `target` printing as a
surviving node id. -/
def edgeCandidates (focusId : String) (newNodeIds : List String)
    (rawEdges : List Json) : List Json :=
  ((rawEdges.filter fun e =>
      jsTruthy e && !jsNullish (jsGet e "source") && !jsNullish (jsGet e "target"))
    |>.filter fun e => jsToStringOpt (jsGet e "source") == focusId)
    |>.filter fun e => newNodeIds.contains (jsToStringOpt (jsGet e "target"))

/-- The `.map((e, i) => …)` over surviving candidate edges (expand.ts lines
121–132): build each edge with a collision-resolved id (pool threaded in
payload order, seeded by the caller with the existing element ids), source
forced to `focusId`, and a purely-ASCII label replaced by the kind-derived
default. -/
def buildModelEdges (focusId : String) (domain : Domain) (nodes : List Node) :
    Nat → List Json → List String → List Edge × List String
  | _, [], used => ([], used)
  | i, e :: rest, used =>
    let target := jsToStringOpt (jsGet e "target")
    let base :=
      if jsNullish (jsGet e "id") then
        focusId ++ "--" ++ target ++ "--" ++ Nat.repr i
      else jsToStringOpt (jsGet e "id")
    let r := makeUniqueId base used
    let label0 := if jsNullish (jsGet e "label") then "関連" else jsToStringOpt (jsGet e "label")
    let label :=
      if !hasJapaneseChar label0 && looksAsciiOnly label0 then
        edgeLabelJa domain (((nodes.find? fun n => n.id == target).map Node.kind).getD "")
      else label0
    let rec' := buildModelEdges focusId domain nodes (i + 1) rest r.2
    ({ id := r.1, source := focusId, target := target, label := label } :: rec'.1, rec'.2)

/-- Connectivity completion (expand.ts lines 134–146): for every node whose id
is not among the model edges' targets, synthesize a `focus → node` edge with
an auto-generated id and the kind-derived default label. -/
def supplementEdges (focusId : String) (domain : Domain) (covered : List String) :
    List Node → List String → List Edge × List String
  | [], used => ([], used)
  | n :: rest, used =>
    if covered.contains n.id then supplementEdges focusId domain covered rest used
    else
      let r := makeUniqueId (focusId ++ "--" ++ n.id ++ "--auto") used
      let rec' := supplementEdges focusId domain covered rest r.2
      ({ id := r.1, source := focusId, target := n.id,
         label := edgeLabelJa domain n.kind } :: rec'.1, rec'.2)

/-- The `edgesFromModel` stage of `sanitizeExpandResult` (lines 114–132),
together with the edge-id pool it leaves behind (`usedEdgeIds`, seeded with
the existing element ids — not with the new node ids). -/
def modelStage (focusId : String) (focusDepth : Int)
    (existingElementIds allowedKinds : List String)
    (rawNodes rawEdges : List Json) : List Edge × List String :=
  let nodes := nodesPipeline focusDepth existingElementIds allowedKinds rawNodes
  buildModelEdges focusId (inferDomainFromAllowedKinds allowedKinds) nodes 0
    (edgeCandidates focusId (nodes.map Node.id) rawEdges) existingElementIds

/-- The `supplemented` stage (lines 134–146), continuing the edge-id pool of
`modelStage`. -/
def suppStage (focusId : String) (focusDepth : Int)
    (existingElementIds allowedKinds : List String)
    (rawNodes rawEdges : List Json) : List Edge × List String :=
  supplementEdges focusId (inferDomainFromAllowedKinds allowedKinds)
    ((modelStage focusId focusDepth existingElementIds allowedKinds rawNodes rawEdges).1.map Edge.target)
    (nodesPipeline focusDepth existingElementIds allowedKinds rawNodes)
    (modelStage focusId focusDepth existingElementIds allowedKinds rawNodes rawEdges).2

/-- The body of `sanitizeExpandResult` once both `raw?.nodes ?? []` and
`raw?.edges ?? []` have been established to be arrays: the node pipeline,
the model edges, the connectivity completion, and the final guard that forces
a single synthetic edge if nodes exist but no edge survived (lines 150–158). -/
def sanitizeCore (focusId : String) (focusDepth : Int)
    (existingElementIds allowedKinds : List String)
    (rawNodes rawEdges : List Json) : ExpandResponse :=
  let domain := inferDomainFromAllowedKinds allowedKinds
  let nodes := nodesPipeline focusDepth existingElementIds allowedKinds rawNodes
  let modelR := modelStage focusId focusDepth existingElementIds allowedKinds rawNodes rawEdges
  let suppR := suppStage focusId focusDepth existingElementIds allowedKinds rawNodes rawEdges
  let edges := modelR.1 ++ suppR.1
  let edges :=
    if decide (0 < nodes.length) && decide (edges.length = 0) then
      edges ++ [{ id := (makeUniqueId (focusId ++ "--" ++ nodes.headI.id ++ "--forced") suppR.2).1,
                  source := focusId, target := nodes.headI.id,
                  label := edgeLabelJa domain nodes.headI.kind }]
    else edges
  { nodes := nodes, edges := edges }

/-- `sanitizeExpandResult` from expand.ts (lines 77–161).  A present,
non-null, non-array `nodes` or `edges` field makes the JS code call `.filter`
on a non-array, which throws; this is the only way the function can fail, and
it is modelled by the `Except` error.  (The pure node pipeline is evaluated
between the two accesses in the source; as it cannot throw, hoisting the
`edges` access next to the `nodes` access is observationally identical.) -/
def sanitizeExpandResult (focusId : String) (focusDepth : Int)
    (existingElementIds allowedKinds : List String) (raw : Json) :
    Except String ExpandResponse := do
  let rawNodes ← asArray (rawField raw "nodes")
  let rawEdges ← asArray (rawField raw "edges")
  return sanitizeCore focusId focusDepth existingElementIds allowedKinds rawNodes rawEdges

/-! ## Layout engine (GraphView.tsx, revisions `part_000` and `part_001`) -/

/-- A positioned cytoscape node: `id`, `depth` data fields and a 2-D position. -/
structure PNode where
  id : String
  depth : Int
  x : ℚ
  y : ℚ
deriving DecidableEq, Repr, Inhabited

/-- A cytoscape edge (only the fields the layout reads). -/
structure PEdge where
  id : String
  source : String
  target : String
deriving DecidableEq, Repr, Inhabited

/-- `cy.getElementById(id).position({x, y})`: update the position of the node
with the given id (ids are unique in a cytoscape graph). -/
def setPos (ns : List PNode) (id : String) (x y : ℚ) : List PNode :=
  ns.map fun n => if n.id == id then { n with x := x, y := y } else n

/-- `[...childIds].sort((a, b) => a.localeCompare(b))`, modelled as sorting by
a fixed total order on strings. -/
def sortStrings (l : List String) : List String :=
  List.insertionSort (· ≤ ·) l

namespace GraphView0

/-- The `childIds.forEach((cid, i) => …)` loop of `placeChildrenForward` in
`part_000` (lines 116–128): no sorting, no collision avoidance; `k` is the
captured `childIds.length`, `p`/`vx`/`vy` the captured parent position and
unit direction. -/
def forwardLoop (p : PNode) (vx vy : ℚ) (k : Nat) :
    Nat → List String → List PNode → List PNode
  | _, [], ns => ns
  | i, cid :: rest, ns =>
    let ns' :=
      if (ns.find? fun n => n.id == cid).isSome then
        let t : ℚ := (i : ℚ) - ((k : ℚ) - 1) / 2
        let px := -vy
        let py := vx
        setPos ns cid (p.x + vx * 190 + px * 120 * t) (p.y + vy * 190 + py * 120 * t)
      else ns
    forwardLoop p vx vy k (i + 1) rest ns'

/-- `placeChildrenForward` from `part_000` (lines 94–129).  `hyp` interprets
`Math.hypot`. -/
def placeChildrenForward (hyp : ℚ → ℚ → ℚ) (ns : List PNode) (es : List PEdge)
    (parentId : String) (childIds : List String) : List PNode :=
  match ns.find? fun n => n.id == parentId with
  | none => ns
  | some p =>
    let inEdges := es.filter fun e => e.target == parentId
    let fromNode : Option PNode :=
      match inEdges.head? with
      | some e => ns.find? fun n => n.id == e.source
      | none => none
    let dir : ℚ × ℚ :=
      match fromNode with
      | some f =>
        let vx := p.x - f.x
        let vy := p.y - f.y
        let len := hyp vx vy
        let len := if len = 0 then 1 else len
        (vx / len, vy / len)
      | none => (1, 0)
    forwardLoop p dir.1 dir.2 childIds.length 0 childIds ns

end GraphView0

namespace GraphView1

/-- The bounded collision-avoidance repair of `placeChildrenForward` in
`part_001` (lines 96–107): up to 8 times, if any other node lies within
distance 62 of the candidate position, push the candidate 40 further along
the forward direction. -/
def avoidLoop (hyp : ℚ → ℚ → ℚ) (ns : List PNode) (cid : String) (dx dy : ℚ) :
    Nat → ℚ → ℚ → ℚ × ℚ
  | 0, x, y => (x, y)
  | k + 1, x, y =>
    let ok := ns.all fun n => n.id == cid || !decide (hyp (n.x - x) (n.y - y) < 62)
    if ok then (x, y) else avoidLoop hyp ns cid dx dy k (x + dx * 40) (y + dy * 40)

/-- The `for (let i = 0; i < ids.length; i++)` loop of `placeChildrenForward`
in `part_001` (lines 84–110), over the identifier-sorted child list.  `f` is
the captured focus node, `mid = (ids.length - 1) / 2`. -/
def forwardLoop (hyp : ℚ → ℚ → ℚ) (f : PNode) (dx dy mid : ℚ) :
    Nat → List String → List PNode → List PNode
  | _, [], ns => ns
  | i, cid :: rest, ns =>
    let ns' :=
      if (ns.find? fun n => n.id == cid).isSome then
        let t : ℚ := (i : ℚ) - mid
        let side := t * 70
        let fd : ℚ := 200 + |t| * 28
        let px := -dy
        let py := dx
        let xy := avoidLoop hyp ns cid dx dy 8 (f.x + dx * fd + px * side) (f.y + dy * fd + py * side)
        setPos ns cid xy.1 xy.2
      else ns
    forwardLoop hyp f dx dy mid (i + 1) rest ns'

/-- `placeChildrenForward` from `part_001` (lines 52–111): sorts the child ids
by identifier, fans them out along the parent→focus direction with stagger,
and applies the bounded collision repair. -/
def placeChildrenForward (hyp : ℚ → ℚ → ℚ) (ns : List PNode) (es : List PEdge)
    (focusId : String) (childIds : List String) : List PNode :=
  match ns.find? fun n => n.id == focusId with
  | none => ns
  | some f =>
    let parent : Option PNode :=
      match (es.filter fun e => e.target == focusId).head? with
      | some e => ns.find? fun n => n.id == e.source
      | none => none
    let d0 : ℚ × ℚ :=
      match parent with
      | some pp => (f.x - pp.x, f.y - pp.y)
      | none => (1, 0)
    let len := hyp d0.1 d0.2
    let len := if len = 0 then 1 else len
    let dx := d0.1 / len
    let dy := d0.2 / len
    let ids := sortStrings childIds
    let mid : ℚ := ((ids.length : ℚ) - 1) / 2
    forwardLoop hyp f dx dy mid 0 ids ns

/-- The set of ids sharing a depth level, sorted by identifier — the group a
node is placed with by `computeRingPositions` in `part_001` (lines 15–46). -/
def ringGroup (s : List PNode) (d : Int) : List String :=
  sortStrings ((s.filter fun m => m.depth == d).map PNode.id)

/-- `computeRingPositions` from `part_001`: depth-0 nodes go to the centre
`(0,0)`; a node at depth `d ≠ 0` is placed on the circle of radius `170·d` at
the angle determined by its rank in its identifier-sorted depth group.
`circle i count` interprets `(cos(2πi/max(count,1)), sin(2πi/max(count,1)))`.
The original mutates node by node, grouped by depth; as the assigned position
depends only on the id/depth data and never on current positions, the final
state is this pointwise map. -/
def computeRingPositions (circle : Nat → Nat → ℚ × ℚ) (s : List PNode) : List PNode :=
  s.map fun n =>
    if n.depth == 0 then { n with x := 0, y := 0 }
    else
      let g := ringGroup s n.depth
      let c := circle (g.indexOf n.id) g.length
      let radius : ℚ := 170 * (n.depth : ℚ)
      { n with x := radius * c.1, y := radius * c.2 }

end GraphView1

/-- An interpretation of `Math.hypot` for concrete counterexamples.  The
configurations evaluated below never take the branch that consults it with a
nonzero second argument, and on the axis `hypot(x, 0) = |x|`. -/
def hypInterp (x y : ℚ) : ℚ := if y = 0 then |x| else 0

/-- Decimal value of a digit character, used to invert `Nat.repr`. -/
def digitVal (c : Char) : Nat := c.toNat - 48

/-- Decimal value of a digit string (Horner evaluation). -/
def digitsVal (l : List Char) : Nat := l.foldl (fun a c => 10 * a + digitVal c) 0

/-! ## Concrete inputs used to exercise the pipeline -/

/-- The candidate nodes of the spec §8 scenario: two entries with the same id
`"a"`, an unknown kind with an ASCII label, and a known kind with a Japanese
label. -/
def scenarioNodesList : List Json :=
  [.obj [("id", .str "a"), ("label", .str "Example"), ("kind", .str "unknownkind")],
   .obj [("id", .str "a"), ("label", .str "別の例"), ("kind", .str "concept")]]

/-- The spec §8 scenario payload. -/
def scenarioPayload : Json :=
  .obj [("nodes", .arr scenarioNodesList), ("edges", .arr [])]

/-- A payload whose model edge carries the same id as the node it targets:
the sanitizer resolves node ids and edge ids against two separate pools, so
both come out as `"e1"`. -/
def sharedIdPayload : Json :=
  .obj [("nodes", .arr [.obj [("id", .str "e1"), ("label", .str "日本"), ("kind", .str "concept")]]),
        ("edges", .arr [.obj [("id", .str "e1"), ("source", .str "f"), ("target", .str "e1"),
                              ("label", .str "関連です")]])]

/-- Four candidate nodes of a language-filtered kind; only the first has a
purely-ASCII label. -/
def fourNodesList : List Json :=
  [.obj [("id", .str "n1"), ("label", .str "plain"), ("kind", .str "note")],
   .obj [("id", .str "n2"), ("label", .str "香り"), ("kind", .str "note")],
   .obj [("id", .str "n3"), ("label", .str "香り"), ("kind", .str "note")],
   .obj [("id", .str "n4"), ("label", .str "香り"), ("kind", .str "note")]]

/-- Payload carrying `fourNodesList` and no `edges` field. -/
def fourNodesPayload : Json := .obj [("nodes", .arr fourNodesList)]

/-- A payload whose `nodes` field is present but not an array. -/
def nonArrayNodesPayload : Json := .obj [("nodes", .num 5)]

/-- A three-node graph for the layout counterexample: focus `"f"` with no
inbound edge (so the forward direction defaults to `(1, 0)` and `Math.hypot`
is never consulted) and two children still at the origin. -/
def layoutState : List PNode :=
  [{ id := "f", depth := 1, x := 0, y := 0 },
   { id := "a", depth := 2, x := 0, y := 0 },
   { id := "b", depth := 2, x := 0, y := 0 }]

/-! ## Freshness of `makeUniqueId`

`makeUniqueId`'s loop tries the candidates `base`, `base__1`, `base__2`, …;
since these are pairwise distinct strings, among the first `used.length + 1`
of them at least one lies outside `used`, so the fuelled loop always stops at
an unused candidate.  Distinctness requires the injectivity of `Nat.repr`,
proved here by evaluating digit strings back to numbers. -/

theorem digitsVal_foldl (l : List Char) (a : Nat) :
    l.foldl (fun a c => 10 * a + digitVal c) a = a * 10 ^ l.length + digitsVal l := by
  induction l generalizing a with
  | nil => simp [digitsVal]
  | cons c t ih =>
    have hc : digitsVal (c :: t) = digitVal c * 10 ^ t.length + digitsVal t := by
      have := ih (10 * 0 + digitVal c)
      simpa [digitsVal] using this
    simp only [List.foldl_cons, List.length_cons]
    rw [ih (10 * a + digitVal c), hc]
    ring

theorem digitsVal_cons (c : Char) (t : List Char) :
    digitsVal (c :: t) = digitVal c * 10 ^ t.length + digitsVal t := by
  have := digitsVal_foldl t (digitVal c)
  simpa [digitsVal] using this

theorem digitVal_digitChar {d : Nat} (h : d < 10) : digitVal (Nat.digitChar d) = d := by
  interval_cases d <;> rfl

theorem digitsVal_toDigitsCore :
    ∀ (f n : Nat), n < 10 ^ f → ∀ l : List Char,
      digitsVal (Nat.toDigitsCore 10 f n l) = n * 10 ^ l.length + digitsVal l := by
  intro f
  induction f with
  | zero =>
    intro n h l
    have hn : n = 0 := by simpa using h
    subst hn
    simp [Nat.toDigitsCore]
  | succ f ih =>
    intro n h l
    have hmod : n % 10 < 10 := Nat.mod_lt n (by norm_num)
    by_cases h0 : n / 10 = 0
    · have hn : n < 10 := by omega
      simp only [Nat.toDigitsCore, h0, if_true]
      rw [digitsVal_cons, digitVal_digitChar hmod]
      have : n % 10 = n := Nat.mod_eq_of_lt hn
      rw [this]
    · have hlt : n / 10 < 10 ^ f := by
        apply Nat.div_lt_of_lt_mul
        calc n < 10 ^ (f + 1) := h
        _ = 10 * 10 ^ f := by ring
      simp only [Nat.toDigitsCore, h0, if_false]
      rw [ih (n / 10) hlt (Nat.digitChar (n % 10) :: l)]
      rw [digitsVal_cons, digitVal_digitChar hmod, List.length_cons]
      have hdm : 10 * (n / 10) + n % 10 = n := Nat.div_add_mod n 10
      calc n / 10 * 10 ^ (l.length + 1) + (n % 10 * 10 ^ l.length + digitsVal l)
          = (10 * (n / 10) + n % 10) * 10 ^ l.length + digitsVal l := by ring
      _ = n * 10 ^ l.length + digitsVal l := by rw [hdm]

theorem digitsVal_toDigits (n : Nat) : digitsVal (Nat.toDigits 10 n) = n := by
  have h : n < 10 ^ (n + 1) :=
    lt_of_lt_of_le (Nat.lt_pow_self (by norm_num) n)
      (Nat.pow_le_pow_right (by norm_num) (Nat.le_succ n))
  have := digitsVal_toDigitsCore (n + 1) n h []
  simpa [Nat.toDigits, digitsVal] using this

theorem natRepr_injective : Function.Injective Nat.repr := by
  intro m n h
  have hd : Nat.toDigits 10 m = Nat.toDigits 10 n := by
    have h2 := congrArg String.data h
    simpa [Nat.repr, List.asString] using h2
  have h3 := congrArg digitsVal hd
  simpa [digitsVal_toDigits] using h3

theorem candidateId_injective (base : String) : Function.Injective (candidateId base) := by
  intro i j h
  unfold candidateId at h
  by_cases hi : i = 0 <;> by_cases hj : j = 0
  · omega
  · rw [if_pos hi, if_neg hj] at h
    have := congrArg String.length h
    simp only [String.length_append] at this
    have h2 : String.length "__" = 2 := rfl
    omega
  · rw [if_neg hi, if_pos hj] at h
    have := congrArg String.length h
    simp only [String.length_append] at this
    have h2 : String.length "__" = 2 := rfl
    omega
  · rw [if_neg hi, if_neg hj] at h
    have hdata := congrArg String.data h
    simp only [String.data_append] at hdata
    have hr : (Nat.repr i).data = (Nat.repr j).data := by simpa using hdata
    exact natRepr_injective (String.ext hr)

theorem exists_fresh_candidate (base : String) (used : List String) :
    ∃ j, j ≤ used.length ∧ candidateId base j ∉ used := by
  by_contra hc
  push_neg at hc
  have hsub : ((List.range (used.length + 1)).map (candidateId base)).toFinset ⊆
      used.toFinset := by
    intro x hx
    simp only [List.mem_toFinset, List.mem_map, List.mem_range] at hx ⊢
    obtain ⟨j, hj, rfl⟩ := hx
    exact hc j (by omega)
  have hnd : ((List.range (used.length + 1)).map (candidateId base)).Nodup :=
    (List.nodup_range _).map (candidateId_injective base)
  have h1 : used.length + 1 ≤ used.toFinset.card := by
    calc used.length + 1
        = ((List.range (used.length + 1)).map (candidateId base)).length := by simp
    _ = ((List.range (used.length + 1)).map (candidateId base)).toFinset.card :=
        (List.toFinset_card_of_nodup hnd).symm
    _ ≤ used.toFinset.card := Finset.card_le_card hsub
  have h2 : used.toFinset.card ≤ used.length := List.toFinset_card_le used
  omega

theorem makeUniqueIdGo_not_mem (base : String) (used : List String) :
    ∀ fuel j : Nat, (∃ k, j ≤ k ∧ k ≤ j + fuel ∧ candidateId base k ∉ used) →
      makeUniqueIdGo base used fuel j ∉ used := by
  intro fuel
  induction fuel with
  | zero =>
    intro j ⟨k, h1, h2, h3⟩
    have hk : k = j := by omega
    subst hk
    simpa [makeUniqueIdGo] using h3
  | succ f ih =>
    intro j ⟨k, h1, h2, h3⟩
    simp only [makeUniqueIdGo]
    by_cases hm : candidateId base j ∈ used
    · rw [if_pos hm]
      apply ih
      have hkj : k ≠ j := fun he => h3 (he ▸ hm)
      exact ⟨k, by omega, by omega, h3⟩
    · rwa [if_neg hm]

theorem makeUniqueId_fst_not_mem (base : String) (used : List String) :
    (makeUniqueId base used).1 ∉ used := by
  obtain ⟨j, hj, hfree⟩ := exists_fresh_candidate base used
  exact makeUniqueIdGo_not_mem base used (used.length + 1) 0 ⟨j, by omega, by omega, hfree⟩

theorem makeUniqueId_snd (base : String) (used : List String) :
    (makeUniqueId base used).2 = (makeUniqueId base used).1 :: used := rfl

/-! ## Identifier bookkeeping of the pipeline stages -/

theorem contains_iff_mem (l : List String) (a : String) : l.contains a = true ↔ a ∈ l := by
  simp [List.contains]

theorem resolveNodeIds_used_mono (ns : List Node) :
    ∀ (used : List String) (x : String), x ∈ used → x ∈ (resolveNodeIds ns used).2 := by
  induction ns with
  | nil => intro used x hx; simpa [resolveNodeIds] using hx
  | cons n rest ih =>
    intro used x hx
    simp only [resolveNodeIds]
    exact ih _ x (by simp [makeUniqueId_snd, List.mem_cons]; exact Or.inr hx)

theorem resolveNodeIds_ids_spec (ns : List Node) :
    ∀ used : List String,
      (∀ m ∈ (resolveNodeIds ns used).1,
        m.id ∉ used ∧ m.id ∈ (resolveNodeIds ns used).2) ∧
      ((resolveNodeIds ns used).1.map Node.id).Nodup := by
  induction ns with
  | nil => intro used; simp [resolveNodeIds]
  | cons n rest ih =>
    intro used
    obtain ⟨ih1, ih2⟩ := ih (makeUniqueId n.id used).2
    simp only [resolveNodeIds]
    constructor
    · intro m hm
      rcases List.mem_cons.1 hm with hm | hm
      · subst hm
        refine ⟨makeUniqueId_fst_not_mem n.id used, ?_⟩
        exact resolveNodeIds_used_mono rest _ _ (by simp [makeUniqueId_snd])
      · obtain ⟨hnotin, hin⟩ := ih1 m hm
        rw [makeUniqueId_snd] at hnotin
        exact ⟨fun hx => hnotin (List.mem_cons_of_mem _ hx), hin⟩
    · rw [List.map_cons, List.nodup_cons]
      refine ⟨?_, ih2⟩
      intro hmem
      obtain ⟨m, hm, hid⟩ := List.mem_map.1 hmem
      obtain ⟨hnotin, _⟩ := ih1 m hm
      rw [makeUniqueId_snd] at hnotin
      exact hnotin (hid ▸ List.mem_cons_self _ _)

theorem resolveNodeIds_fields (ns : List Node) :
    ∀ (used : List String) (m : Node), m ∈ (resolveNodeIds ns used).1 →
      ∃ n ∈ ns, m.label = n.label ∧ m.kind = n.kind ∧ m.depth = n.depth := by
  induction ns with
  | nil => intro used m hm; simp [resolveNodeIds] at hm
  | cons n rest ih =>
    intro used m hm
    simp only [resolveNodeIds] at hm
    rcases List.mem_cons.1 hm with hm | hm
    · exact ⟨n, List.mem_cons_self _ _, by simp [hm]⟩
    · obtain ⟨n', hn', hf⟩ := ih _ m hm
      exact ⟨n', List.mem_cons_of_mem _ hn', hf⟩

theorem buildModelEdges_used_mono (fid : String) (dom : Domain) (nodes : List Node) :
    ∀ (i : Nat) (es : List Json) (used : List String) (x : String), x ∈ used →
      x ∈ (buildModelEdges fid dom nodes i es used).2 := by
  intro i es
  induction es generalizing i with
  | nil => intro used x hx; simpa [buildModelEdges] using hx
  | cons e rest ih =>
    intro used x hx
    simp only [buildModelEdges]
    exact ih _ _ x (by rw [makeUniqueId_snd]; exact List.mem_cons_of_mem _ hx)

theorem buildModelEdges_ids_spec (fid : String) (dom : Domain) (nodes : List Node) :
    ∀ (i : Nat) (es : List Json) (used : List String),
      (∀ e ∈ (buildModelEdges fid dom nodes i es used).1,
        e.id ∉ used ∧ e.id ∈ (buildModelEdges fid dom nodes i es used).2) ∧
      ((buildModelEdges fid dom nodes i es used).1.map Edge.id).Nodup := by
  intro i es
  induction es generalizing i with
  | nil => intro used; simp [buildModelEdges]
  | cons e rest ih =>
    intro used
    obtain ⟨ih1, ih2⟩ := ih (i + 1) _
    simp only [buildModelEdges]
    constructor
    · intro ed hed
      rcases List.mem_cons.1 hed with hed | hed
      · subst hed
        refine ⟨makeUniqueId_fst_not_mem _ used, ?_⟩
        exact buildModelEdges_used_mono fid dom nodes _ _ _ _ (by simp [makeUniqueId_snd])
      · obtain ⟨hnotin, hin⟩ := ih1 ed hed
        rw [makeUniqueId_snd] at hnotin
        exact ⟨fun hx => hnotin (List.mem_cons_of_mem _ hx), hin⟩
    · rw [List.map_cons, List.nodup_cons]
      refine ⟨?_, ih2⟩
      intro hmem
      obtain ⟨ed, hed, hid⟩ := List.mem_map.1 hmem
      obtain ⟨hnotin, _⟩ := ih1 ed hed
      rw [makeUniqueId_snd] at hnotin
      exact hnotin (hid ▸ List.mem_cons_self _ _)

theorem buildModelEdges_shape (fid : String) (dom : Domain) (nodes : List Node) :
    ∀ (i : Nat) (es : List Json) (used : List String) (ed : Edge),
      ed ∈ (buildModelEdges fid dom nodes i es used).1 →
      ed.source = fid ∧ ∃ ej ∈ es, ed.target = jsToStringOpt (jsGet ej "target") := by
  intro i es
  induction es generalizing i with
  | nil => intro used ed hed; simp [buildModelEdges] at hed
  | cons e rest ih =>
    intro used ed hed
    simp only [buildModelEdges] at hed
    rcases List.mem_cons.1 hed with hed | hed
    · subst hed
      exact ⟨rfl, e, List.mem_cons_self _ _, rfl⟩
    · obtain ⟨hsrc, ej, hej, htgt⟩ := ih _ _ ed hed
      exact ⟨hsrc, ej, List.mem_cons_of_mem _ hej, htgt⟩

theorem supplementEdges_used_mono (fid : String) (dom : Domain) (covered : List String) :
    ∀ (ns : List Node) (used : List String) (x : String), x ∈ used →
      x ∈ (supplementEdges fid dom covered ns used).2 := by
  intro ns
  induction ns with
  | nil => intro used x hx; simpa [supplementEdges] using hx
  | cons n rest ih =>
    intro used x hx
    by_cases hc : covered.contains n.id = true
    · simp only [supplementEdges]
      rw [if_pos hc]
      exact ih used x hx
    · simp only [supplementEdges]
      rw [if_neg hc]
      exact ih _ x (by rw [makeUniqueId_snd]; exact List.mem_cons_of_mem _ hx)

theorem supplementEdges_ids_spec (fid : String) (dom : Domain) (covered : List String) :
    ∀ (ns : List Node) (used : List String),
      (∀ e ∈ (supplementEdges fid dom covered ns used).1,
        e.id ∉ used ∧ e.id ∈ (supplementEdges fid dom covered ns used).2) ∧
      ((supplementEdges fid dom covered ns used).1.map Edge.id).Nodup := by
  intro ns
  induction ns with
  | nil => intro used; simp [supplementEdges]
  | cons n rest ih =>
    intro used
    by_cases hc : covered.contains n.id = true
    · simp only [supplementEdges]
      rw [if_pos hc]
      exact ih used
    · obtain ⟨ih1, ih2⟩ := ih (makeUniqueId (fid ++ "--" ++ n.id ++ "--auto") used).2
      simp only [supplementEdges]
      rw [if_neg hc]
      constructor
      · intro ed hed
        rcases List.mem_cons.1 hed with hed | hed
        · subst hed
          refine ⟨makeUniqueId_fst_not_mem _ used, ?_⟩
          exact supplementEdges_used_mono fid dom covered _ _ _ (by simp [makeUniqueId_snd])
        · obtain ⟨hnotin, hin⟩ := ih1 ed hed
          rw [makeUniqueId_snd] at hnotin
          exact ⟨fun hx => hnotin (List.mem_cons_of_mem _ hx), hin⟩
      · rw [List.map_cons, List.nodup_cons]
        refine ⟨?_, ih2⟩
        intro hmem
        obtain ⟨ed, hed, hid⟩ := List.mem_map.1 hmem
        obtain ⟨hnotin, _⟩ := ih1 ed hed
        rw [makeUniqueId_snd] at hnotin
        exact hnotin (hid ▸ List.mem_cons_self _ _)

theorem supplementEdges_shape (fid : String) (dom : Domain) (covered : List String) :
    ∀ (ns : List Node) (used : List String) (ed : Edge),
      ed ∈ (supplementEdges fid dom covered ns used).1 →
      ed.source = fid ∧ ∃ n ∈ ns, ed.target = n.id ∧ ed.label = edgeLabelJa dom n.kind := by
  intro ns
  induction ns with
  | nil => intro used ed hed; simp [supplementEdges] at hed
  | cons n rest ih =>
    intro used ed hed
    by_cases hc : covered.contains n.id = true
    · rw [supplementEdges, if_pos hc] at hed
      obtain ⟨hsrc, n', hn', hrest⟩ := ih _ ed hed
      exact ⟨hsrc, n', List.mem_cons_of_mem _ hn', hrest⟩
    · rw [supplementEdges, if_neg hc] at hed
      rcases List.mem_cons.1 hed with hed | hed
      · subst hed
        exact ⟨rfl, n, List.mem_cons_self _ _, rfl, rfl⟩
      · obtain ⟨hsrc, n', hn', hrest⟩ := ih _ ed hed
        exact ⟨hsrc, n', List.mem_cons_of_mem _ hn', hrest⟩

theorem supplementEdges_covers (fid : String) (dom : Domain) (covered : List String) :
    ∀ (ns : List Node) (used : List String) (n : Node), n ∈ ns →
      covered.contains n.id = false →
      ∃ e ∈ (supplementEdges fid dom covered ns used).1,
        e.source = fid ∧ e.target = n.id ∧ e.label = edgeLabelJa dom n.kind := by
  intro ns
  induction ns with
  | nil => intro used n hn; simp at hn
  | cons m rest ih =>
    intro used n hn hnc
    rcases List.mem_cons.1 hn with hn | hn
    · subst hn
      simp only [supplementEdges]
      rw [if_neg (by rw [hnc]; exact Bool.false_ne_true)]
      exact ⟨_, List.mem_cons_self _ _, rfl, rfl, rfl⟩
    · by_cases hc : covered.contains m.id = true
      · simp only [supplementEdges]
        rw [if_pos hc]
        exact ih _ n hn hnc
      · simp only [supplementEdges]
        rw [if_neg hc]
        obtain ⟨e, he, hprops⟩ := ih _ n hn hnc
        exact ⟨e, List.mem_cons_of_mem _ he, hprops⟩

/-! ## Structure of the sanitizer's stages -/

theorem extractNodes_depth (d : Int) (ak : List String) (lns : List Json) :
    ∀ n ∈ extractNodes d ak lns, n.depth = d + 1 := by
  intro n hn
  unfold extractNodes at hn
  obtain ⟨hn2, _⟩ := List.mem_filter.1 hn
  obtain ⟨x, _, rfl⟩ := List.mem_map.1 hn2
  rfl

theorem capNodes_sublist (l : List Node) : (capNodes l).Sublist l := by
  unfold capNodes
  by_cases h : l.length > 3
  · rw [if_pos h]; exact List.take_sublist _ _
  · rw [if_neg h]

theorem capNodes_length_le (l : List Node) : (capNodes l).length ≤ 3 := by
  unfold capNodes
  by_cases h : l.length > 3
  · rw [if_pos h]; simp [List.length_take]
  · rw [if_neg h]; omega

theorem languageFilter_sublist (dom : Domain) (l : List Node) :
    (languageFilter dom l).Sublist l :=
  List.filter_sublist _

theorem nodesPipeline_sublist (d : Int) (ex ak : List String) (lns : List Json) :
    (nodesPipeline d ex ak lns).Sublist (resolveNodeIds (extractNodes d ak lns) ex).1 :=
  (capNodes_sublist _).trans (languageFilter_sublist _ _)

theorem mem_nodesPipeline {d : Int} {ex ak : List String} {lns : List Json} {n : Node}
    (h : n ∈ nodesPipeline d ex ak lns) :
    n ∈ (resolveNodeIds (extractNodes d ak lns) ex).1 :=
  (nodesPipeline_sublist d ex ak lns).subset h

theorem sanitizeExpandResult_ok_inv {fid : String} {d : Int} {ex ak : List String}
    {raw : Json} {r : ExpandResponse}
    (h : sanitizeExpandResult fid d ex ak raw = .ok r) :
    ∃ lns les, asArray (rawField raw "nodes") = .ok lns ∧
      asArray (rawField raw "edges") = .ok les ∧
      r = sanitizeCore fid d ex ak lns les := by
  unfold sanitizeExpandResult at h
  cases h1 : asArray (rawField raw "nodes") with
  | error e => rw [h1] at h; exact absurd h (by simp [Bind.bind, Except.bind])
  | ok lns =>
    cases h2 : asArray (rawField raw "edges") with
    | error e => rw [h1, h2] at h; exact absurd h (by simp [Bind.bind, Except.bind])
    | ok les =>
      rw [h1, h2] at h
      refine ⟨lns, les, rfl, rfl, ?_⟩
      have h3 : Except.ok (ε := String) (sanitizeCore fid d ex ak lns les) = .ok r := h
      exact (Except.ok.inj h3).symm

theorem sanitizeCore_nodes (fid : String) (d : Int) (ex ak : List String)
    (lns les : List Json) :
    (sanitizeCore fid d ex ak lns les).nodes = nodesPipeline d ex ak lns := rfl

theorem sanitizeCore_edges_mem {fid : String} {d : Int} {ex ak : List String}
    {lns les : List Json} {e : Edge}
    (he : e ∈ (sanitizeCore fid d ex ak lns les).edges) :
    e ∈ (modelStage fid d ex ak lns les).1 ∨ e ∈ (suppStage fid d ex ak lns les).1 ∨
      (nodesPipeline d ex ak lns ≠ [] ∧
        e = { id := (makeUniqueId (fid ++ "--" ++ (nodesPipeline d ex ak lns).headI.id ++ "--forced")
                      (suppStage fid d ex ak lns les).2).1,
              source := fid, target := (nodesPipeline d ex ak lns).headI.id,
              label := edgeLabelJa (inferDomainFromAllowedKinds ak)
                        (nodesPipeline d ex ak lns).headI.kind }) := by
  simp only [sanitizeCore] at he
  by_cases hc : (decide (0 < (nodesPipeline d ex ak lns).length) &&
      decide (((modelStage fid d ex ak lns les).1 ++ (suppStage fid d ex ak lns les).1).length = 0)) = true
  · rw [if_pos hc] at he
    rcases List.mem_append.1 he with he | he
    · rcases List.mem_append.1 he with he | he
      · exact Or.inl he
      · exact Or.inr (Or.inl he)
    · refine Or.inr (Or.inr ⟨?_, by simpa using he⟩)
      have h0 : 0 < (nodesPipeline d ex ak lns).length := by
        have hc2 := hc
        rw [Bool.and_eq_true] at hc2
        exact of_decide_eq_true hc2.1
      exact List.ne_nil_of_length_pos h0
  · rw [if_neg hc] at he
    rcases List.mem_append.1 he with he | he
    · exact Or.inl he
    · exact Or.inr (Or.inl he)

theorem sanitizeCore_edges_super {fid : String} {d : Int} {ex ak : List String}
    {lns les : List Json} {e : Edge}
    (he : e ∈ (modelStage fid d ex ak lns les).1 ∨ e ∈ (suppStage fid d ex ak lns les).1) :
    e ∈ (sanitizeCore fid d ex ak lns les).edges := by
  have hmem : e ∈ (modelStage fid d ex ak lns les).1 ++ (suppStage fid d ex ak lns les).1 :=
    List.mem_append.2 he
  simp only [sanitizeCore]
  by_cases hc : (decide (0 < (nodesPipeline d ex ak lns).length) &&
      decide (((modelStage fid d ex ak lns les).1 ++ (suppStage fid d ex ak lns les).1).length = 0)) = true
  · rw [if_pos hc]
    exact List.mem_append_left _ hmem
  · rw [if_neg hc]
    exact hmem

theorem modelStage_eq (fid : String) (d : Int) (ex ak : List String) (lns les : List Json) :
    modelStage fid d ex ak lns les =
      buildModelEdges fid (inferDomainFromAllowedKinds ak) (nodesPipeline d ex ak lns) 0
        (edgeCandidates fid ((nodesPipeline d ex ak lns).map Node.id) les) ex := rfl

theorem suppStage_eq (fid : String) (d : Int) (ex ak : List String) (lns les : List Json) :
    suppStage fid d ex ak lns les =
      supplementEdges fid (inferDomainFromAllowedKinds ak)
        ((modelStage fid d ex ak lns les).1.map Edge.target)
        (nodesPipeline d ex ak lns) (modelStage fid d ex ak lns les).2 := rfl

theorem edgeCandidates_target (fid : String) (ids : List String) (les : List Json) :
    ∀ ej ∈ edgeCandidates fid ids les,
      ids.contains (jsToStringOpt (jsGet ej "target")) = true := by
  intro ej hej
  unfold edgeCandidates at hej
  exact (List.mem_filter.1 hej).2

theorem headI_mem_of_ne_nil {α : Type} [Inhabited α] (l : List α) (h : l ≠ []) :
    l.headI ∈ l := by
  cases l with
  | nil => exact absurd rfl h
  | cons a t => simp [List.headI]

theorem nodesPipeline_ids_fresh (d : Int) (ex ak : List String) (lns : List Json) :
    ∀ i ∈ (nodesPipeline d ex ak lns).map Node.id, i ∉ ex := by
  intro i hi
  obtain ⟨m, hm, rfl⟩ := List.mem_map.1 hi
  exact ((resolveNodeIds_ids_spec _ ex).1 m (mem_nodesPipeline hm)).1

theorem nodesPipeline_ids_nodup (d : Int) (ex ak : List String) (lns : List Json) :
    ((nodesPipeline d ex ak lns).map Node.id).Nodup :=
  (List.Sublist.map Node.id (nodesPipeline_sublist d ex ak lns)).nodup
    (resolveNodeIds_ids_spec _ ex).2

/-! ## The claims -/

/-- C1: the spec declares `sanitizeExpandResult` a total function over
arbitrary untrusted JSON-shaped input, never raising and always returning a
`{nodes, edges}` result.  The code, however, calls `.filter` directly on
`raw?.nodes ?? []`; when the `nodes` field is present but not an array —
here the number `5` — `(5).filter` is not a function and the call throws a
`TypeError` instead of repairing the anomaly.  This theorem evaluates the
embedded code at that failing input. -/
theorem sanitizeExpandResult_throws_on_nonarray_nodes :
    sanitizeExpandResult "f" 0 [] [] nonArrayNodesPayload =
      .error "TypeError: filter is not a function" := rfl

/-- C5: every node the sanitizer outputs carries `depth = focusDepth + 1`,
whatever depths the raw payload claimed: extraction constructs every candidate
with that depth, and no later stage changes it. -/
theorem sanitizeExpandResult_depth (fid : String) (d : Int) (ex ak : List String)
    (raw : Json) (r : ExpandResponse) (h : sanitizeExpandResult fid d ex ak raw = .ok r) :
    ∀ n ∈ r.nodes, n.depth = d + 1 := by
  obtain ⟨lns, les, h1, h2, rfl⟩ := sanitizeExpandResult_ok_inv h
  intro n hn
  rw [sanitizeCore_nodes] at hn
  obtain ⟨n0, hn0, _, _, hd⟩ := resolveNodeIds_fields _ _ _ (mem_nodesPipeline hn)
  rw [hd]
  exact extractNodes_depth d ak lns n0 hn0

/-- Witness for C5 at the spec §8 scenario input. -/
theorem sanitizeExpandResult_depth_witness :
    (Node.mk "a" "Example" "concept" 1).depth = 0 + 1 :=
  sanitizeExpandResult_depth "root" 0 ["root"] ["root", "concept"] scenarioPayload
    { nodes := [Node.mk "a" "Example" "concept" 1, Node.mk "a__1" "別の例" "concept" 1],
      edges := [Edge.mk "root--a--auto" "root" "a" "関連",
                Edge.mk "root--a__1--auto" "root" "a__1" "関連"] }
    rfl (Node.mk "a" "Example" "concept" 1) (by decide)

/-- C7 (counterexample): in the code the language filter runs on everything
that survives extraction and id resolution, and the cardinality cap runs on
the filter's output — not the other way round as the claim states.  With four
candidates whose first is dropped by the filter, the code outputs
`n2, n3, n4`: the fourth candidate appears even though under the claimed
order (cap to the first 3, then filter) it could never be handed to the
filter, and that order would output only `n2, n3`. -/
theorem sanitizeExpandResult_cap_order_counterexample :
    (sanitizeExpandResult "f" 0 [] ["brand", "note"] fourNodesPayload).map
        (fun r => r.nodes.map Node.id) = .ok ["n2", "n3", "n4"] ∧
      (claimOrderNodesPipeline 0 [] ["brand", "note"] fourNodesList).map Node.id =
        ["n2", "n3"] ∧
      (["n2", "n3", "n4"] : List String) ≠ ["n2", "n3"] :=
  ⟨rfl, rfl, by decide⟩

/-- C7 (amended): the language-policy filter runs before the cardinality cap
(each stage consuming the previous stage's output), and the output node count
is at most 3 for every input. -/
theorem sanitizeExpandResult_filter_before_cap (fid : String) (d : Int)
    (ex ak : List String) (raw : Json) (r : ExpandResponse) (lns : List Json)
    (h : sanitizeExpandResult fid d ex ak raw = .ok r)
    (hn : asArray (rawField raw "nodes") = .ok lns) :
    r.nodes = capNodes (languageFilter (inferDomainFromAllowedKinds ak)
        (resolveNodeIds (extractNodes d ak lns) ex).1) ∧
      r.nodes.length ≤ 3 := by
  obtain ⟨lns', les, h1, h2, rfl⟩ := sanitizeExpandResult_ok_inv h
  rw [hn] at h1
  obtain rfl : lns' = lns := (Except.ok.inj h1).symm
  exact ⟨rfl, capNodes_length_le _⟩

/-- Witness for C7's amended claim at the four-candidate input. -/
theorem sanitizeExpandResult_filter_before_cap_witness :
    ([Node.mk "n2" "香り" "note" 1, Node.mk "n3" "香り" "note" 1,
      Node.mk "n4" "香り" "note" 1] : List Node) =
        capNodes (languageFilter (inferDomainFromAllowedKinds ["brand", "note"])
          (resolveNodeIds (extractNodes 0 ["brand", "note"] fourNodesList) []).1) ∧
      ([Node.mk "n2" "香り" "note" 1, Node.mk "n3" "香り" "note" 1,
        Node.mk "n4" "香り" "note" 1] : List Node).length ≤ 3 :=
  sanitizeExpandResult_filter_before_cap "f" 0 [] ["brand", "note"] fourNodesPayload
    { nodes := [Node.mk "n2" "香り" "note" 1, Node.mk "n3" "香り" "note" 1,
                Node.mk "n4" "香り" "note" 1],
      edges := [Edge.mk "f--n2--auto" "f" "n2" "ノート", Edge.mk "f--n3--auto" "f" "n3" "ノート",
                Edge.mk "f--n4--auto" "f" "n4" "ノート"] }
    fourNodesList rfl rfl

/-- C6 (counterexample): on the spec §8 scenario the sanitizer keeps *both*
nodes and synthesizes *two* edges.  `allowedKinds = ["root", "concept"]`
contains none of the domain-marker kinds, so the inferred domain is `unknown`
and the language filter drops nothing — contrary to the claim that node `"a"`
(ASCII label) is dropped and exactly one edge `root → a__1` results. -/
theorem sanitizeExpandResult_scenario_counterexample :
    (sanitizeExpandResult "root" 0 ["root"] ["root", "concept"] scenarioPayload).map
      (fun r => (r.nodes.map Node.id, r.edges.length)) = .ok (["a", "a__1"], 2) := rfl

/-- C6 (amended): on the scenario input both nodes survive — ids `"a"` and
`"a__1"`, kinds coerced/kept as `"concept"`, depth 1 — because the vocabulary
`["root", "concept"]` yields domain `unknown`, whose language policy exempts
every kind; the output contains the two synthesized edges `root → a` and
`root → a__1` with the generic default label. -/
theorem sanitizeExpandResult_scenario_amended :
    sanitizeExpandResult "root" 0 ["root"] ["root", "concept"] scenarioPayload =
      .ok { nodes := [Node.mk "a" "Example" "concept" 1,
                      Node.mk "a__1" "別の例" "concept" 1],
            edges := [Edge.mk "root--a--auto" "root" "a" "関連",
                      Edge.mk "root--a__1--auto" "root" "a__1" "関連"] } := rfl

/-- C3 (counterexample): node ids and edge ids are resolved against two
*separate* pools (both seeded with the existing element ids, but neither
seeded with the other's fresh picks), so an output edge id can equal an
output node id: here both come out as `"e1"`, refuting the claim that no two
output ids taken from one shared namespace are equal. -/
theorem sanitizeExpandResult_shared_namespace_counterexample :
    (sanitizeExpandResult "f" 0 [] ["root", "concept"] sharedIdPayload).map
      (fun r => (r.nodes.map Node.id, r.edges.map Edge.id)) = .ok (["e1"], ["e1"]) := rfl

/-- C3 (amended): no output node id and no output edge id belongs to
`existingElementIds`; the node ids are pairwise distinct and the edge ids are
pairwise distinct.  (A node id and an edge id may still coincide, as the
counterexample shows.) -/
theorem sanitizeExpandResult_ids_fresh (fid : String) (d : Int) (ex ak : List String)
    (raw : Json) (r : ExpandResponse) (h : sanitizeExpandResult fid d ex ak raw = .ok r) :
    (r.nodes.map Node.id).Nodup ∧ (r.edges.map Edge.id).Nodup ∧
      (∀ i ∈ r.nodes.map Node.id, i ∉ ex) ∧ (∀ i ∈ r.edges.map Edge.id, i ∉ ex) := by
  obtain ⟨lns, les, h1, h2, rfl⟩ := sanitizeExpandResult_ok_inv h
  rw [sanitizeCore_nodes]
  obtain ⟨hm1, hm2⟩ := buildModelEdges_ids_spec fid (inferDomainFromAllowedKinds ak)
    (nodesPipeline d ex ak lns) 0
    (edgeCandidates fid ((nodesPipeline d ex ak lns).map Node.id) les) ex
  obtain ⟨hs1, hs2⟩ := supplementEdges_ids_spec fid (inferDomainFromAllowedKinds ak)
    ((modelStage fid d ex ak lns les).1.map Edge.target)
    (nodesPipeline d ex ak lns) (modelStage fid d ex ak lns les).2
  rw [← modelStage_eq] at hm1 hm2
  rw [← suppStage_eq] at hs1 hs2
  have hedges : ∀ e ∈ (sanitizeCore fid d ex ak lns les).edges, e.id ∉ ex := by
    intro e he
    rcases sanitizeCore_edges_mem he with hm | hs | ⟨hne, rfl⟩
    · exact fun hx => (hm1 e hm).1 hx
    · intro hx
      have hx2 : e.id ∈ (modelStage fid d ex ak lns les).2 := by
        rw [modelStage_eq]
        exact buildModelEdges_used_mono _ _ _ _ _ _ _ hx
      exact (hs1 e hs).1 hx2
    · intro hx
      have hx2 : (makeUniqueId (fid ++ "--" ++ (nodesPipeline d ex ak lns).headI.id ++ "--forced")
          (suppStage fid d ex ak lns les).2).1 ∈ (suppStage fid d ex ak lns les).2 := by
        rw [suppStage_eq]
        apply supplementEdges_used_mono
        rw [modelStage_eq]
        exact buildModelEdges_used_mono _ _ _ _ _ _ _ hx
      exact makeUniqueId_fst_not_mem _ _ hx2
  have hdisj : ((modelStage fid d ex ak lns les).1.map Edge.id).Disjoint
      ((suppStage fid d ex ak lns les).1.map Edge.id) := by
    intro x hxm hxs
    obtain ⟨em, hem, rfl⟩ := List.mem_map.1 hxm
    obtain ⟨es', hes, hxe⟩ := List.mem_map.1 hxs
    have h1 : em.id ∈ (modelStage fid d ex ak lns les).2 := (hm1 em hem).2
    have h2 : es'.id ∉ (modelStage fid d ex ak lns les).2 := (hs1 es' hes).1
    exact h2 (hxe ▸ h1)
  refine ⟨nodesPipeline_ids_nodup d ex ak lns, ?_, nodesPipeline_ids_fresh d ex ak lns, ?_⟩
  · -- edge ids are pairwise distinct
    simp only [sanitizeCore]
    by_cases hc : (decide (0 < (nodesPipeline d ex ak lns).length) &&
        decide (((modelStage fid d ex ak lns les).1 ++ (suppStage fid d ex ak lns les).1).length = 0)) = true
    · rw [if_pos hc]
      have hc2 := hc
      rw [Bool.and_eq_true] at hc2
      have hlen : ((modelStage fid d ex ak lns les).1 ++ (suppStage fid d ex ak lns les).1).length = 0 :=
        of_decide_eq_true hc2.2
      have hemp : (modelStage fid d ex ak lns les).1 ++ (suppStage fid d ex ak lns les).1 = [] :=
        List.length_eq_zero.1 hlen
      rw [hemp]
      simp
    · rw [if_neg hc]
      rw [List.map_append, List.nodup_append]
      exact ⟨hm2, hs2, hdisj⟩
  · -- edge ids avoid the existing element ids
    intro i hi
    obtain ⟨e, he, rfl⟩ := List.mem_map.1 hi
    exact hedges e he

/-- Witness for C3's amended claim at the shared-id input. -/
theorem sanitizeExpandResult_ids_fresh_witness :
    ((["e1"] : List String).Nodup ∧ (["e1"] : List String).Nodup ∧
      (∀ i ∈ (["e1"] : List String), i ∉ ([] : List String)) ∧
      (∀ i ∈ (["e1"] : List String), i ∉ ([] : List String))) := by
  have h := sanitizeExpandResult_ids_fresh "f" 0 [] ["root", "concept"] sharedIdPayload
    { nodes := [Node.mk "e1" "日本" "concept" 1],
      edges := [Edge.mk "e1" "f" "e1" "関連です"] } rfl
  exact h

/-- C4: every output edge has `source = focusId`, and its `target` is the id
of a node in the same output (so never an id from `existingElementIds`):
model edges are filtered on exactly these conditions and rebuilt with
`source := focusId`, supplemented edges target surviving nodes by
construction, and the final-guard edge targets the first surviving node. -/
theorem sanitizeExpandResult_edges_star (fid : String) (d : Int) (ex ak : List String)
    (raw : Json) (r : ExpandResponse) (h : sanitizeExpandResult fid d ex ak raw = .ok r) :
    ∀ e ∈ r.edges, e.source = fid ∧ e.target ∈ r.nodes.map Node.id ∧ e.target ∉ ex := by
  obtain ⟨lns, les, h1, h2, rfl⟩ := sanitizeExpandResult_ok_inv h
  intro e he
  rw [sanitizeCore_nodes]
  have hfresh := nodesPipeline_ids_fresh d ex ak lns
  rcases sanitizeCore_edges_mem he with hm | hs | ⟨hne, rfl⟩
  · rw [modelStage_eq] at hm
    obtain ⟨hsrc, ej, hej, htgt⟩ := buildModelEdges_shape _ _ _ _ _ _ _ hm
    have hc := edgeCandidates_target fid ((nodesPipeline d ex ak lns).map Node.id) les ej hej
    have hmem : e.target ∈ (nodesPipeline d ex ak lns).map Node.id := by
      rw [htgt]
      exact (contains_iff_mem _ _).1 hc
    exact ⟨hsrc, hmem, hfresh _ hmem⟩
  · rw [suppStage_eq] at hs
    obtain ⟨hsrc, n, hn, htgt, _⟩ := supplementEdges_shape _ _ _ _ _ _ hs
    have hmem : e.target ∈ (nodesPipeline d ex ak lns).map Node.id := by
      rw [htgt]
      exact List.mem_map_of_mem _ hn
    exact ⟨hsrc, hmem, hfresh _ hmem⟩
  · have hmem : (nodesPipeline d ex ak lns).headI.id ∈ (nodesPipeline d ex ak lns).map Node.id :=
      List.mem_map_of_mem _ (headI_mem_of_ne_nil _ hne)
    exact ⟨rfl, hmem, hfresh _ hmem⟩

/-- Witness for C4 at the shared-id input, on its single (model) edge. -/
theorem sanitizeExpandResult_edges_star_witness :
    (Edge.mk "e1" "f" "e1" "関連です").source = "f" ∧
      (Edge.mk "e1" "f" "e1" "関連です").target ∈
        ([Node.mk "e1" "日本" "concept" 1].map Node.id) ∧
      (Edge.mk "e1" "f" "e1" "関連です").target ∉ ([] : List String) :=
  sanitizeExpandResult_edges_star "f" 0 [] ["root", "concept"] sharedIdPayload
    { nodes := [Node.mk "e1" "日本" "concept" 1],
      edges := [Edge.mk "e1" "f" "e1" "関連です"] } rfl
    (Edge.mk "e1" "f" "e1" "関連です") (by decide)

/-- C2: if the output has nodes it has edges, every output node is the target
of an output edge from the focus, and every node not already targeted by a
model edge gets a synthesized `focus → node` edge carrying the kind-derived
default label. -/
theorem sanitizeExpandResult_connectivity (fid : String) (d : Int) (ex ak : List String)
    (raw : Json) (r : ExpandResponse) (lns les : List Json)
    (h : sanitizeExpandResult fid d ex ak raw = .ok r)
    (hn : asArray (rawField raw "nodes") = .ok lns)
    (he : asArray (rawField raw "edges") = .ok les) :
    (r.nodes ≠ [] → r.edges ≠ []) ∧
    (∀ n ∈ r.nodes, ∃ e ∈ r.edges, e.source = fid ∧ e.target = n.id) ∧
    (∀ n ∈ r.nodes,
      ((modelStage fid d ex ak lns les).1.map Edge.target).contains n.id = false →
      ∃ e ∈ r.edges, e.source = fid ∧ e.target = n.id ∧
        e.label = edgeLabelJa (inferDomainFromAllowedKinds ak) n.kind) := by
  obtain ⟨lns', les', h1, h2, rfl⟩ := sanitizeExpandResult_ok_inv h
  rw [hn] at h1
  obtain rfl : lns = lns' := Except.ok.inj h1
  rw [he] at h2
  obtain rfl : les = les' := Except.ok.inj h2
  have hsupp : ∀ n ∈ nodesPipeline d ex ak lns,
      ((modelStage fid d ex ak lns les).1.map Edge.target).contains n.id = false →
      ∃ e ∈ (sanitizeCore fid d ex ak lns les).edges, e.source = fid ∧ e.target = n.id ∧
        e.label = edgeLabelJa (inferDomainFromAllowedKinds ak) n.kind := by
    intro n hn_mem hcov
    obtain ⟨e, he', hsrc, htgt, hlab⟩ :=
      supplementEdges_covers fid (inferDomainFromAllowedKinds ak)
        ((modelStage fid d ex ak lns les).1.map Edge.target)
        (nodesPipeline d ex ak lns) (modelStage fid d ex ak lns les).2 n hn_mem hcov
    refine ⟨e, sanitizeCore_edges_super (Or.inr ?_), hsrc, htgt, hlab⟩
    rw [suppStage_eq]
    exact he'
  have hmain : ∀ n ∈ (sanitizeCore fid d ex ak lns les).nodes,
      ∃ e ∈ (sanitizeCore fid d ex ak lns les).edges, e.source = fid ∧ e.target = n.id := by
    intro n hn_mem
    rw [sanitizeCore_nodes] at hn_mem
    by_cases hcov : ((modelStage fid d ex ak lns les).1.map Edge.target).contains n.id = true
    · obtain ⟨t, ht, hteq⟩ : ∃ e ∈ (modelStage fid d ex ak lns les).1, e.target = n.id := by
        obtain ⟨e, he', heq⟩ := List.mem_map.1 ((contains_iff_mem _ _).1 hcov)
        exact ⟨e, he', heq⟩
      have hsrc : t.source = fid := by
        rw [modelStage_eq] at ht
        exact (buildModelEdges_shape _ _ _ _ _ _ _ ht).1
      exact ⟨t, sanitizeCore_edges_super (Or.inl ht), hsrc, hteq⟩
    · have hcov' : ((modelStage fid d ex ak lns les).1.map Edge.target).contains n.id = false := by
        cases hcs : ((modelStage fid d ex ak lns les).1.map Edge.target).contains n.id
        · rfl
        · exact absurd hcs hcov
      obtain ⟨e, he', hsrc, htgt, _⟩ := hsupp n hn_mem hcov'
      exact ⟨e, he', hsrc, htgt⟩
  refine ⟨?_, hmain, ?_⟩
  · intro hne
    obtain ⟨n, hn_mem⟩ := List.exists_mem_of_ne_nil _ hne
    obtain ⟨e, he_mem, _⟩ := hmain n hn_mem
    exact List.ne_nil_of_mem he_mem
  · intro n hn_mem
    rw [sanitizeCore_nodes] at hn_mem
    exact hsupp n hn_mem

/-- Witness for C2 at the spec §8 scenario: two nodes force a non-empty edge
list. -/
theorem sanitizeExpandResult_connectivity_witness :
    ([Edge.mk "root--a--auto" "root" "a" "関連",
      Edge.mk "root--a__1--auto" "root" "a__1" "関連"] : List Edge) ≠ [] :=
  (sanitizeExpandResult_connectivity "root" 0 ["root"] ["root", "concept"] scenarioPayload
    { nodes := [Node.mk "a" "Example" "concept" 1, Node.mk "a__1" "別の例" "concept" 1],
      edges := [Edge.mk "root--a--auto" "root" "a" "関連",
                Edge.mk "root--a__1--auto" "root" "a__1" "関連"] }
    scenarioNodesList [] rfl rfl rfl).1 (by decide)

/-- C10: a kind vocabulary containing none of the six marker kinds infers
domain `unknown`, whose language policy requires Japanese for no kind, so the
language filter keeps every candidate: the sanitizer's node output is exactly
the cap of the id-resolved extraction, ASCII labels included. -/
theorem inferDomain_unknown_language_filter_inert (ak : List String)
    (h1 : "producer" ∉ ak) (h2 : "grape" ∉ ak) (h3 : "appellation" ∉ ak)
    (h4 : "brand" ∉ ak) (h5 : "note" ∉ ak) (h6 : "perfumer" ∉ ak) :
    inferDomainFromAllowedKinds ak = .unknown ∧
    (∀ k, shouldRequireJapaneseLabel (inferDomainFromAllowedKinds ak) k = false) ∧
    (∀ ns, languageFilter (inferDomainFromAllowedKinds ak) ns = ns) ∧
    (∀ (fid : String) (d : Int) (ex : List String) (raw : Json) (r : ExpandResponse)
      (lns : List Json), sanitizeExpandResult fid d ex ak raw = .ok r →
      asArray (rawField raw "nodes") = .ok lns →
      r.nodes = capNodes (resolveNodeIds (extractNodes d ak lns) ex).1) := by
  have hco : ∀ s, s ∉ ak → ak.contains s = false := by
    intro s hs
    cases hcs : ak.contains s
    · rfl
    · exact absurd ((contains_iff_mem ak s).1 hcs) hs
  have hdom : inferDomainFromAllowedKinds ak = .unknown := by
    unfold inferDomainFromAllowedKinds
    rw [hco _ h1, hco _ h2, hco _ h3, hco _ h4, hco _ h5, hco _ h6]
    rfl
  have hfil : ∀ ns, languageFilter (inferDomainFromAllowedKinds ak) ns = ns := by
    intro ns
    rw [hdom]
    apply List.filter_eq_self.2
    intro n _
    rfl
  refine ⟨hdom, fun k => by rw [hdom]; rfl, hfil, ?_⟩
  intro fid d ex raw r lns h hn
  obtain ⟨lns', les, ha, hb, rfl⟩ := sanitizeExpandResult_ok_inv h
  rw [hn] at ha
  obtain rfl : lns = lns' := Except.ok.inj ha
  rw [sanitizeCore_nodes]
  unfold nodesPipeline
  rw [hfil]

/-- Witness for C10 with the marker-free vocabulary `["root", "concept"]`: the
language filter keeps a node whose label is pure ASCII. -/
theorem inferDomain_unknown_language_filter_inert_witness :
    languageFilter (inferDomainFromAllowedKinds ["root", "concept"])
        [Node.mk "x" "Example" "concept" 1] = [Node.mk "x" "Example" "concept" 1] :=
  (inferDomain_unknown_language_filter_inert ["root", "concept"] (by decide) (by decide)
    (by decide) (by decide) (by decide) (by decide)).2.2.1
    [Node.mk "x" "Example" "concept" 1]

/-! ## Layout claims -/

theorem sortStrings_congr {l₁ l₂ : List String} (h : l₁.Perm l₂) :
    sortStrings l₁ = sortStrings l₂ :=
  List.eq_of_perm_of_sorted
    ((List.perm_insertionSort _ l₁).trans (h.trans (List.perm_insertionSort _ l₂).symm))
    (List.sorted_insertionSort _ l₁) (List.sorted_insertionSort _ l₂)

/-- C8 (counterexample): the `part_000` revision of `placeChildrenForward`
does *not* sort the child ids — each child's offset is keyed to its position
in the argument list — so presenting the same child set in a different order
moves node `"a"` from `y = -60` to `y = 60`.  (The focus has no inbound edge
here, so the direction defaults to `(1, 0)` and `Math.hypot` is never
consulted.) -/
theorem placeChildrenForward_order_counterexample :
    ((GraphView0.placeChildrenForward hypInterp layoutState [] "f" ["a", "b"]).find?
        (fun n => n.id == "a")).map PNode.y ≠
    ((GraphView0.placeChildrenForward hypInterp layoutState [] "f" ["b", "a"]).find?
        (fun n => n.id == "a")).map PNode.y := by
  norm_num [GraphView0.placeChildrenForward, GraphView0.forwardLoop, setPos, layoutState,
    List.find?, show ("f" = "a") ↔ False from by decide,
    show ("f" = "b") ↔ False from by decide,
    show ("a" = "b") ↔ False from by decide,
    show ("b" = "a") ↔ False from by decide,
    show (("f" == "a") = false) from by decide,
    show (("b" == "a") = false) from by decide,
    show (("a" == "a") = true) from by decide]

/-- C8 (amended): the `part_001` revision sorts the child ids by identifier
before placing, so for any graph state and any interpretation of
`Math.hypot`, two calls with child-id lists that are permutations of each
other assign identical coordinates to every node.  (The claim as stated is
refuted by the `part_000` revision — see the counterexample.) -/
theorem placeChildrenForward_perm_invariant (hyp : ℚ → ℚ → ℚ) (ns : List PNode)
    (es : List PEdge) (fid : String) (ids₁ ids₂ : List String) (hperm : ids₁.Perm ids₂) :
    GraphView1.placeChildrenForward hyp ns es fid ids₁ =
      GraphView1.placeChildrenForward hyp ns es fid ids₂ := by
  have hs := sortStrings_congr hperm
  simp only [GraphView1.placeChildrenForward, hs]

/-- Witness for C8's amended claim: the two orders of the same child set give
the same placement. -/
theorem placeChildrenForward_perm_invariant_witness :
    GraphView1.placeChildrenForward hypInterp layoutState [] "f" ["b", "a"] =
      GraphView1.placeChildrenForward hypInterp layoutState [] "f" ["a", "b"] :=
  placeChildrenForward_perm_invariant hypInterp layoutState [] "f" ["b", "a"] ["a", "b"]
    (List.Perm.swap "a" "b" [])

theorem setPos_sig (ns : List PNode) (cid : String) (x y : ℚ) :
    (setPos ns cid x y).map (fun n => (n.id, n.depth)) = ns.map (fun n => (n.id, n.depth)) := by
  unfold setPos
  rw [List.map_map]
  apply List.map_congr_left
  intro n _
  by_cases h : (n.id == cid) = true
  · simp [Function.comp, h]
  · simp [Function.comp, h]

theorem setPos_filter_frame (ids : List String) (cid : String) (hin : ids.contains cid = true)
    (x y : ℚ) (ns : List PNode) :
    (setPos ns cid x y).filter (fun n => !ids.contains n.id) =
      ns.filter (fun n => !ids.contains n.id) := by
  unfold setPos
  rw [List.filter_map]
  have hpg : ((fun n : PNode => !ids.contains n.id) ∘
      (fun n : PNode => if (n.id == cid) = true then { n with x := x, y := y } else n)) =
      fun n : PNode => !ids.contains n.id := by
    funext n
    by_cases h : (n.id == cid) = true
    · simp [Function.comp, h]
    · simp [Function.comp, h]
  rw [hpg]
  conv_rhs => rw [← List.map_id (List.filter (fun n : PNode => !ids.contains n.id) ns)]
  apply List.map_congr_left
  intro n hn
  have hp := (List.mem_filter.1 hn).2
  have hne : n.id ≠ cid := by
    intro he
    rw [he, hin] at hp
    exact absurd hp (by decide)
  have hbeq : (n.id == cid) = false := by
    cases hb : (n.id == cid)
    · rfl
    · exact absurd (eq_of_beq hb) hne
  rw [hbeq]
  simp

theorem computeRing_sig (circle : Nat → Nat → ℚ × ℚ) (s : List PNode) :
    (GraphView1.computeRingPositions circle s).map (fun n => (n.id, n.depth)) =
      s.map (fun n => (n.id, n.depth)) := by
  unfold GraphView1.computeRingPositions
  rw [List.map_map]
  apply List.map_congr_left
  intro n _
  by_cases h : (n.depth == 0) = true
  · simp [Function.comp, h]
  · simp [Function.comp, h]

theorem depthGroup_congr :
    ∀ (s₁ s₂ : List PNode),
      s₁.map (fun n => (n.id, n.depth)) = s₂.map (fun n => (n.id, n.depth)) →
      ∀ d : Int, (s₁.filter fun m => m.depth == d).map PNode.id =
        (s₂.filter fun m => m.depth == d).map PNode.id := by
  intro s₁
  induction s₁ with
  | nil =>
    intro s₂ h d
    cases s₂ with
    | nil => rfl
    | cons b t₂ => simp at h
  | cons a t ih =>
    intro s₂ h d
    cases s₂ with
    | nil => simp at h
    | cons b t₂ =>
      simp only [List.map_cons, List.cons.injEq, Prod.mk.injEq] at h
      obtain ⟨⟨hid, hdep⟩, htail⟩ := h
      simp only [List.filter_cons]
      by_cases hd : (a.depth == d) = true
      · rw [if_pos hd, if_pos (by rw [← hdep]; exact hd)]
        simp only [List.map_cons]
        rw [hid, ih t₂ htail d]
      · rw [if_neg hd, if_neg (by rw [← hdep]; exact hd)]
        exact ih t₂ htail d

theorem ringGroup_congr (s₁ s₂ : List PNode)
    (h : s₁.map (fun n => (n.id, n.depth)) = s₂.map (fun n => (n.id, n.depth))) (d : Int) :
    GraphView1.ringGroup s₁ d = GraphView1.ringGroup s₂ d := by
  unfold GraphView1.ringGroup
  rw [depthGroup_congr s₁ s₂ h d]

theorem computeRing_eq_map (circle : Nat → Nat → ℚ × ℚ) (s : List PNode) :
    GraphView1.computeRingPositions circle s =
      s.map (fun n => if (n.depth == 0) = true then { n with x := 0, y := 0 }
        else
          { n with
            x := 170 * (n.depth : ℚ) *
              (circle ((GraphView1.ringGroup s n.depth).indexOf n.id)
                (GraphView1.ringGroup s n.depth).length).1,
            y := 170 * (n.depth : ℚ) *
              (circle ((GraphView1.ringGroup s n.depth).indexOf n.id)
                (GraphView1.ringGroup s n.depth).length).2 }) := rfl

theorem computeRing_idempotent (circle : Nat → Nat → ℚ × ℚ) (s : List PNode) :
    GraphView1.computeRingPositions circle (GraphView1.computeRingPositions circle s) =
      GraphView1.computeRingPositions circle s := by
  have hgr : ∀ d : Int,
      GraphView1.ringGroup (GraphView1.computeRingPositions circle s) d =
        GraphView1.ringGroup s d :=
    fun d => ringGroup_congr _ _ (computeRing_sig circle s) d
  rw [computeRing_eq_map circle (GraphView1.computeRingPositions circle s)]
  simp only [hgr]
  rw [computeRing_eq_map circle s, List.map_map]
  apply List.map_congr_left
  intro n _
  simp only [Function.comp]
  by_cases h : (n.depth == 0) = true
  · simp only [if_pos h]
  · simp only [if_neg h]

theorem forwardLoop_frame (hyp : ℚ → ℚ → ℚ) (f : PNode) (dx dy mid : ℚ) (ids : List String) :
    ∀ (todo : List String) (i : Nat) (ns : List PNode),
      (∀ c ∈ todo, ids.contains c = true) →
      ((GraphView1.forwardLoop hyp f dx dy mid i todo ns).filter
          (fun n => !ids.contains n.id) = ns.filter (fun n => !ids.contains n.id)) ∧
      ((GraphView1.forwardLoop hyp f dx dy mid i todo ns).map (fun n => (n.id, n.depth)) =
        ns.map (fun n => (n.id, n.depth))) := by
  intro todo
  induction todo with
  | nil => intro i ns h; exact ⟨rfl, rfl⟩
  | cons c rest ih =>
    intro i ns h
    have hc : ids.contains c = true := h c (List.mem_cons_self _ _)
    have htail : ∀ c' ∈ rest, ids.contains c' = true :=
      fun c' hc' => h c' (List.mem_cons_of_mem _ hc')
    simp only [GraphView1.forwardLoop]
    by_cases hf : (ns.find? fun n => n.id == c).isSome = true
    · rw [if_pos hf]
      refine ⟨?_, ?_⟩
      · rw [(ih (i + 1) _ htail).1, setPos_filter_frame ids c hc]
      · rw [(ih (i + 1) _ htail).2, setPos_sig]
    · rw [if_neg hf]
      exact ih (i + 1) ns htail

theorem placeChildrenForward_frame (hyp : ℚ → ℚ → ℚ) (ns : List PNode) (es : List PEdge)
    (fid : String) (ids : List String) :
    ((GraphView1.placeChildrenForward hyp ns es fid ids).filter
        (fun n => !ids.contains n.id) = ns.filter (fun n => !ids.contains n.id)) ∧
      ((GraphView1.placeChildrenForward hyp ns es fid ids).map (fun n => (n.id, n.depth)) =
        ns.map (fun n => (n.id, n.depth))) := by
  unfold GraphView1.placeChildrenForward
  cases hfind : ns.find? fun n => n.id == fid with
  | none => exact ⟨rfl, rfl⟩
  | some f =>
    apply forwardLoop_frame
    intro c hc
    exact (contains_iff_mem _ _).2 ((List.perm_insertionSort _ ids).subset hc)

/-- C9: the incremental layout touches only what it is asked to place.
Forward fan-out (`part_001`) leaves every node outside the child-id set
untouched (their full records, positions included, survive filtering) and
never changes any node's `id`/`depth` data; and ring placement is idempotent
— its assignment depends only on the graph's id/depth data, never on current
positions, so re-invoking it on an unchanged membership reassigns exactly the
same coordinates.  Together these give the claim's frame property for both
strategies and the no-op behaviour of re-running the pipeline on an
already-merged batch.  Both hold for every interpretation of `Math.hypot` and
of the ring's `cos`/`sin`. -/
theorem layoutEngine_frame_and_idempotent :
    (∀ (hyp : ℚ → ℚ → ℚ) (ns : List PNode) (es : List PEdge) (fid : String)
        (ids : List String),
      (GraphView1.placeChildrenForward hyp ns es fid ids).filter
          (fun n => !ids.contains n.id) = ns.filter (fun n => !ids.contains n.id) ∧
      (GraphView1.placeChildrenForward hyp ns es fid ids).map (fun n => (n.id, n.depth)) =
        ns.map (fun n => (n.id, n.depth))) ∧
    (∀ (circle : Nat → Nat → ℚ × ℚ) (s : List PNode),
      GraphView1.computeRingPositions circle (GraphView1.computeRingPositions circle s) =
        GraphView1.computeRingPositions circle s) :=
  ⟨fun hyp ns es fid ids => placeChildrenForward_frame hyp ns es fid ids,
   fun circle s => computeRing_idempotent circle s⟩
